import Mathlib

/-!
Verification development for the `reggc` registry garbage collector.

The embedding mirrors `gc.go`:
* `cutList` / `stringCut` model Go's `strings.Cut` (split at the first
  occurrence of a separator, reporting whether it was found);
* `parseImage` models the parse step of `deleteImage` (gc.go:121-135):
  cut on the first `/`, then on the first `:` of the remainder, and build
  the `TagDelete` request against the fixed registry `"registry:5000"`;
* `fetchRegistryImages` models gc.go:81-104 (cross product of repositories
  and tags, each composed as `"ctr.lesiw.dev/" ++ repo ++ ":" ++ tag`);
* `fetchPodImages` models gc.go:106-119 (pods listed with namespace `""`,
  every container image collected into a set);
* `pruneReferenced`, `runDeletions`, `runCycle` model the reconciliation
  loop of `run` (gc.go:57-78);
* `gcExec` models the executor fallback of `gcRegistry` (gc.go:143-190).
-/

namespace Reggc

/-- Model of Go `strings.Cut` on character lists: split at the first
occurrence of `sep`, returning the parts before and after it, or `none`
when `sep` does not occur. -/
def cutList : List Char → Char → Option (List Char × List Char)
  | [], _ => none
  | c :: rest, sep =>
    if c = sep then some ([], rest)
    else
      match cutList rest sep with
      | some (pre, post) => some (c :: pre, post)
      | none => none

/-- Model of Go `strings.Cut` on strings (single-character separator, as
used in `deleteImage`). -/
def stringCut (s : String) (sep : Char) : Option (String × String) :=
  (cutList s.data sep).map (fun p => (⟨p.1⟩, ⟨p.2⟩))

/-- The `ref.Ref` value passed to `rc.TagDelete` in `deleteImage`
(gc.go:130-135): fixed registry, parsed repository and tag. -/
structure DeleteRequest where
  registry : String
  repository : String
  tag : String
deriving DecidableEq, Repr

/-- The two parse-error branches of `deleteImage` (gc.go:123-128). -/
inductive ParseError where
  | parseRegistry (img : String)
  | parseRepoTag (repotag : String)
deriving DecidableEq, Repr

/-- Parse step of `deleteImage` (gc.go:121-135): cut the image string on
the first `/`; on failure report `could not parse registry`; cut the
remainder on the first `:`; on failure report `could not parse repo and
tag`; otherwise the `TagDelete` request uses the fixed registry
`"registry:5000"` with the parsed repository and tag (the host before the
first `/` is discarded).  An `error` result means `TagDelete` is never
invoked: the Go function returns before the delete call. -/
def parseImage (img : String) : Except ParseError DeleteRequest :=
  match stringCut img '/' with
  | none => .error (.parseRegistry img)
  | some (_, repotag) =>
    match stringCut repotag ':' with
    | none => .error (.parseRepoTag repotag)
    | some (repo, tag) => .ok ⟨"registry:5000", repo, tag⟩

/-- The canonical image string composed by `fetchRegistryImages`
(gc.go:100): the registry's public host, a `/`, the repository, a `:`,
the tag. -/
def imageName (repo tag : String) : String :=
  "ctr.lesiw.dev/" ++ repo ++ ":" ++ tag

/-- Inner loop of `fetchRegistryImages` (gc.go:99-101): insert the
composed image string for every tag of `repo` into the set. -/
def insertTags (repo : String) (tags : List String) (acc : Finset String) :
    Finset String :=
  tags.foldl (fun a tag => insert (imageName repo tag) a) acc

/-- Outer loop of `fetchRegistryImages` (gc.go:89-102): for each
repository call `TagList`; any failure aborts the whole fetch with that
error (no partial inventory); otherwise accumulate all composed image
strings. -/
def fetchRegistryLoop (tagList : String → Except String (List String)) :
    List String → Finset String → Except String (Finset String)
  | [], acc => .ok acc
  | repo :: rest, acc =>
    match tagList repo with
    | .error e => .error e
    | .ok tags => fetchRegistryLoop tagList rest (insertTags repo tags acc)

/-- `fetchRegistryImages` (gc.go:81-104): list repositories (failure
aborts the fetch), then run the per-repository tag loop starting from the
empty set. -/
def fetchRegistryImages (repoList : Except String (List String))
    (tagList : String → Except String (List String)) :
    Except String (Finset String) :=
  match repoList with
  | .error e => .error e
  | .ok repos => fetchRegistryLoop tagList repos ∅

/-- A container of a pod spec, carrying its declared image reference
(`ctr.Image`, gc.go:114-115). -/
structure Container where
  image : String
deriving DecidableEq, Repr

/-- A pod, carrying its list of containers (`pod.Spec.Containers`). -/
structure Pod where
  containers : List Container
deriving DecidableEq, Repr

/-- Collect every container's image of every listed pod into a set
(gc.go:113-117). -/
def collectPodImages (pods : List Pod) : Finset String :=
  pods.foldl
    (fun acc pod =>
      pod.containers.foldl (fun a c => insert c.image a) acc) ∅

/-- Model of the Kubernetes pod-list API over a cluster given as
(namespace, pod) pairs: `Pods(ns).List` returns the pods of namespace
`ns`, and the empty selector `""` means all namespaces. -/
def listPodsApi (cluster : List (String × Pod)) (ns : String) : List Pod :=
  if ns = "" then cluster.map Prod.snd
  else (cluster.filter (fun p => p.1 = ns)).map Prod.snd

/-- `fetchPodImages` (gc.go:106-119): call the pod-list API with the
namespace selector `""` (gc.go:108); any API failure aborts the fetch
with that error and no partial result; otherwise collect every
container's image into a set. -/
def fetchPodImages (api : String → Except String (List Pod)) :
    Except String (Finset String) :=
  match api "" with
  | .error e => .error e
  | .ok pods => .ok (collectPodImages pods)

/-- The pod-list API of a healthy cluster: namespace selection always
succeeds. -/
def clusterApi (cluster : List (String × Pod)) (ns : String) :
    Except String (List Pod) :=
  .ok (listPodsApi cluster ns)

/-- Iteration order over a string set: Go map iteration order is
unspecified, so the model fixes one concrete order (sorted). -/
def iterOrder (s : Finset String) : List String :=
  s.sort (fun a b => a ≤ b)

/-- First loop of `run` (gc.go:65-69): iterate over the registry
inventory and remove every image that is also in the workload inventory
(`delete(regimgs, img)` under `if _, ok := podimgs[img]; ok`).  The
result is the Unreferenced Set. -/
def pruneReferenced (R W : Finset String) : Finset String :=
  (iterOrder R).foldl (fun acc img => if img ∈ W then acc.erase img else acc) R

/-- Second loop of `run` (gc.go:70-74): delete each unreferenced image in
turn; the first failure aborts the loop immediately, returning the images
deleted so far and the image whose deletion failed.  `ok img = true`
means the registry accepted the deletion of `img`. -/
def runDeletions : List String → (String → Bool) → List String × Option String
  | [], _ => ([], none)
  | img :: rest, ok =>
    if ok img then
      match runDeletions rest ok with
      | (d, f) => (img :: d, f)
    else ([], some img)

/-- Observable outcome of one reconciliation cycle: the images deleted,
the image whose deletion failed (if any), and whether the GC trigger was
reached (gc.go:75: `gcRegistry` runs only when every deletion
succeeded). -/
structure CycleResult where
  deleted : List String
  failedOn : Option String
  gcInvoked : Bool
deriving DecidableEq, Repr

/-- The deletion phase of `run` over an already-computed Unreferenced Set
given in iteration order: the GC trigger is invoked iff no deletion
failed (gc.go:70-78). -/
def runCycle (unref : List String) (ok : String → Bool) : CycleResult :=
  ⟨(runDeletions unref ok).1, (runDeletions unref ok).2,
    (runDeletions unref ok).2.isNone⟩

/-- One full reconciliation cycle of `run` (gc.go:57-78) after both
inventories were fetched successfully: compute the Unreferenced Set from
`R` and `W`, then run the deletion phase over it. -/
def runCycleFull (R W : Finset String) (ok : String → Bool) : CycleResult :=
  runCycle (iterOrder (pruneReferenced R W)) ok

/-- Every image the cycle passed to `deleteImage`: the successfully
deleted ones plus, when a deletion failed, the image it failed on. -/
def attemptedDeletions (res : CycleResult) : List String :=
  res.deleted ++ res.failedOn.toList

/-- Registry state after a cycle, modelling the registry as a set from
which a successful `TagDelete` removes the image. -/
def afterCycle (R : Finset String) (res : CycleResult) : Finset String :=
  res.deleted.foldl (fun acc img => acc.erase img) R

/-- Classification of a failure of the WebSocket executor attempt, as
inspected by the fallback predicate of `gcRegistry` (gc.go:168-171):
an upgrade-negotiation failure (`httpstream.IsUpgradeFailure`), an
HTTPS-proxy-related failure (`httpstream.IsHTTPSProxyError`), or any
other failure. -/
inductive ExecErr where
  | upgradeFailure
  | httpsProxyError
  | other (msg : String)
deriving DecidableEq, Repr

/-- Model of `httpstream.IsUpgradeFailure` (gc.go:169). -/
def isUpgradeFailure : ExecErr → Bool
  | .upgradeFailure => true
  | _ => false

/-- Model of `httpstream.IsHTTPSProxyError` (gc.go:170). -/
def isHTTPSProxyError : ExecErr → Bool
  | .httpsProxyError => true
  | _ => false

/-- The fallback predicate `gcRegistry` passes to the fallback executor
(gc.go:168-171). -/
def shouldFallback (e : ExecErr) : Bool :=
  isUpgradeFailure e || isHTTPSProxyError e

/-- Modelled from the spec: the fallback executor built by
`remotecommand.NewFallbackExecutor(wsExec, spdyExec, shouldFallback)`
(gc.go:167-172) is library code outside this repository; per the spec's
state machine it attempts the WebSocket executor first and, exactly when
the failure satisfies the predicate, retries through the legacy SPDY
executor, surfacing any other failure immediately.  `ws` and `spdy` are
the outcomes each executor would produce for this command; the returned
flag records whether the SPDY executor was attempted. -/
def gcExec (ws spdy : Except ExecErr Unit) : Except ExecErr Unit × Bool :=
  match ws with
  | .ok _ => (.ok (), false)
  | .error e => if shouldFallback e then (spdy, true) else (.error e, false)

theorem cutList_eq_none_iff (l : List Char) (sep : Char) :
    cutList l sep = none ↔ sep ∉ l := by
  induction l with
  | nil => simp [cutList]
  | cons c rest ih =>
    by_cases hc : c = sep
    · subst hc
      simp [cutList]
    · cases h : cutList rest sep with
      | none =>
        have h1 : sep ∉ rest := ih.mp h
        have h2 : sep ≠ c := fun hh => hc hh.symm
        simp [cutList, if_neg hc, h, List.mem_cons, h1, h2]
      | some p =>
        have hmem : sep ∈ rest := by
          by_contra hnot
          rw [ih.mpr hnot] at h
          exact Option.noConfusion h
        simp [cutList, if_neg hc, h, List.mem_cons, hmem]

theorem cutList_of_not_mem (pre post : List Char) (sep : Char)
    (hpre : sep ∉ pre) :
    cutList (pre ++ sep :: post) sep = some (pre, post) := by
  induction pre with
  | nil => simp [cutList]
  | cons c rest ih =>
    have hc : c ≠ sep := fun h => hpre (h ▸ List.mem_cons_self c rest)
    have hrest : sep ∉ rest := fun h => hpre (List.mem_cons_of_mem c h)
    simp [cutList, if_neg hc, ih hrest]

theorem cutList_isSome_of_mem (l : List Char) (sep : Char) (h : sep ∈ l) :
    ∃ p, cutList l sep = some p := by
  cases hc : cutList l sep with
  | none => exact absurd h ((cutList_eq_none_iff l sep).mp hc)
  | some p => exact ⟨p, rfl⟩

theorem stringCut_split (s : String) (sep : Char) (pre post : List Char)
    (hs : s.data = pre ++ sep :: post) (hpre : sep ∉ pre) :
    stringCut s sep = some (⟨pre⟩, ⟨post⟩) := by
  unfold stringCut
  rw [hs, cutList_of_not_mem pre post sep hpre]
  rfl

theorem mem_iterOrder (s : Finset String) (img : String) :
    img ∈ iterOrder s ↔ img ∈ s :=
  Finset.mem_sort _

theorem foldl_erase_mem (l : List String) (acc : Finset String)
    (img : String) :
    img ∈ l.foldl (fun a i => a.erase i) acc ↔ img ∈ acc ∧ img ∉ l := by
  induction l generalizing acc with
  | nil => simp
  | cons a rest ih =>
    rw [List.foldl_cons, ih]
    simp only [Finset.mem_erase, List.mem_cons]
    tauto

theorem pruneFold_mem (W : Finset String) (l : List String)
    (acc : Finset String) (img : String) :
    img ∈ l.foldl (fun a i => if i ∈ W then a.erase i else a) acc ↔
      img ∈ acc ∧ ¬(img ∈ l ∧ img ∈ W) := by
  induction l generalizing acc with
  | nil => simp
  | cons a rest ih =>
    rw [List.foldl_cons]
    by_cases ha : a ∈ W
    · rw [if_pos ha, ih]
      by_cases himg : img = a
      · subst himg
        simp [Finset.mem_erase, List.mem_cons, ha]
      · simp only [Finset.mem_erase, List.mem_cons, himg, ne_eq,
          not_false_iff, true_and, false_or]
    · rw [if_neg ha, ih]
      by_cases himg : img = a
      · subst himg
        simp [List.mem_cons, ha]
      · simp [List.mem_cons, himg]

theorem pruneReferenced_mem (R W : Finset String) (img : String) :
    img ∈ pruneReferenced R W ↔ img ∈ R ∧ img ∉ W := by
  unfold pruneReferenced
  rw [pruneFold_mem]
  constructor
  · rintro ⟨hR, hn⟩
    exact ⟨hR, fun hW => hn ⟨(mem_iterOrder R img).mpr hR, hW⟩⟩
  · rintro ⟨hR, hW⟩
    exact ⟨hR, fun hc => hW hc.2⟩

theorem runDeletions_all_ok (unref : List String) (ok : String → Bool)
    (h : ∀ x ∈ unref, ok x = true) :
    runDeletions unref ok = (unref, none) := by
  induction unref with
  | nil => rfl
  | cons a rest ih =>
    simp [runDeletions, h a (List.mem_cons_self a rest),
      ih fun x hx => h x (List.mem_cons_of_mem a hx)]

theorem runDeletions_abort (pre rest : List String) (img : String)
    (ok : String → Bool) (hpre : ∀ x ∈ pre, ok x = true)
    (himg : ok img = false) :
    runDeletions (pre ++ img :: rest) ok = (pre, some img) := by
  induction pre with
  | nil => simp [runDeletions, himg]
  | cons a p ih =>
    simp [runDeletions, hpre a (List.mem_cons_self a p),
      ih fun x hx => hpre x (List.mem_cons_of_mem a hx)]

theorem runDeletions_mem (unref : List String) (ok : String → Bool)
    (x : String)
    (h : x ∈ (runDeletions unref ok).1 ++ (runDeletions unref ok).2.toList) :
    x ∈ unref := by
  induction unref with
  | nil => simp [runDeletions] at h
  | cons a rest ih =>
    by_cases ha : ok a
    · rw [runDeletions, if_pos ha] at h
      cases hr : runDeletions rest ok with
      | mk d f =>
        rw [hr] at h
        simp only [List.cons_append, List.mem_cons] at h
        rcases h with h1 | h2
        · exact h1 ▸ List.mem_cons_self a rest
        · exact List.mem_cons_of_mem a (ih (by rw [hr]; exact h2))
    · rw [runDeletions, if_neg ha] at h
      simp only [List.nil_append, Option.toList_some, List.mem_singleton] at h
      exact h ▸ List.mem_cons_self a rest

theorem insertTags_mem (repo : String) (tags : List String)
    (acc : Finset String) (img : String) :
    img ∈ insertTags repo tags acc ↔
      img ∈ acc ∨ ∃ tag ∈ tags, img = imageName repo tag := by
  induction tags generalizing acc with
  | nil => simp [insertTags]
  | cons t rest ih =>
    show img ∈ insertTags repo rest (insert (imageName repo t) acc) ↔ _
    rw [ih]
    simp only [Finset.mem_insert, List.mem_cons]
    constructor
    · rintro ((h | h) | ⟨tag, ht, rfl⟩)
      · exact Or.inr ⟨t, Or.inl rfl, h⟩
      · exact Or.inl h
      · exact Or.inr ⟨tag, Or.inr ht, rfl⟩
    · rintro (h | ⟨tag, rfl | ht, rfl⟩)
      · exact Or.inl (Or.inr h)
      · exact Or.inl (Or.inl rfl)
      · exact Or.inr ⟨tag, ht, rfl⟩

theorem fetchRegistryLoop_ok_iff
    (tagList : String → Except String (List String)) (repos : List String)
    (acc : Finset String) :
    (∃ imgs, fetchRegistryLoop tagList repos acc = .ok imgs) ↔
      ∀ repo ∈ repos, ∃ tags, tagList repo = .ok tags := by
  induction repos generalizing acc with
  | nil => simp [fetchRegistryLoop]
  | cons r rest ih =>
    cases ht : tagList r with
    | error e =>
      simp only [fetchRegistryLoop, ht]
      constructor
      · rintro ⟨imgs, himgs⟩
        exact Except.noConfusion himgs
      · intro hall
        obtain ⟨tags, hts⟩ := hall r (List.mem_cons_self r rest)
        rw [ht] at hts
        exact Except.noConfusion hts
    | ok tags =>
      simp only [fetchRegistryLoop, ht]
      rw [ih]
      constructor
      · intro hrest repo hrepo
        rcases List.mem_cons.mp hrepo with h | h
        · exact h ▸ ⟨tags, ht⟩
        · exact hrest repo h
      · intro hall repo h
        exact hall repo (List.mem_cons_of_mem r h)

theorem fetchRegistryLoop_mem
    (tagList : String → Except String (List String)) (repos : List String) :
    ∀ acc imgs, fetchRegistryLoop tagList repos acc = .ok imgs →
      ∀ img, (img ∈ imgs ↔ img ∈ acc ∨ ∃ repo ∈ repos, ∃ tags,
        tagList repo = .ok tags ∧ ∃ tag ∈ tags, img = imageName repo tag) := by
  induction repos with
  | nil =>
    intro acc imgs hok img
    simp only [fetchRegistryLoop] at hok
    cases hok
    simp
  | cons r rest ih =>
    intro acc imgs hok img
    cases ht : tagList r with
    | error e =>
      rw [fetchRegistryLoop, ht] at hok
      exact Except.noConfusion hok
    | ok tags =>
      rw [fetchRegistryLoop, ht] at hok
      rw [ih _ _ hok img, insertTags_mem]
      constructor
      · rintro ((h | ⟨tag, htag, rfl⟩) | ⟨repo, hrepo, ts, hts, tag, htag, rfl⟩)
        · exact Or.inl h
        · exact Or.inr ⟨r, List.mem_cons_self r rest, tags, ht, tag, htag, rfl⟩
        · exact Or.inr
            ⟨repo, List.mem_cons_of_mem r hrepo, ts, hts, tag, htag, rfl⟩
      · rintro (h | ⟨repo, hrepo, ts, hts, tag, htag, rfl⟩)
        · exact Or.inl (Or.inl h)
        · rcases List.mem_cons.mp hrepo with h | hmem
          · subst h
            rw [ht] at hts
            cases hts
            exact Or.inl (Or.inr ⟨tag, htag, rfl⟩)
          · exact Or.inr ⟨repo, hmem, ts, hts, tag, htag, rfl⟩

theorem collectContainers_mem (cs : List Container) (acc : Finset String)
    (img : String) :
    img ∈ cs.foldl (fun a c => insert c.image a) acc ↔
      img ∈ acc ∨ ∃ c ∈ cs, c.image = img := by
  induction cs generalizing acc with
  | nil => simp
  | cons c rest ih =>
    rw [List.foldl_cons, ih]
    simp only [Finset.mem_insert, List.mem_cons]
    constructor
    · rintro ((h | h) | ⟨d, hd, hh⟩)
      · exact Or.inr ⟨c, Or.inl rfl, h.symm⟩
      · exact Or.inl h
      · exact Or.inr ⟨d, Or.inr hd, hh⟩
    · rintro (h | ⟨d, rfl | hd, hh⟩)
      · exact Or.inl (Or.inr h)
      · exact Or.inl (Or.inl hh.symm)
      · exact Or.inr ⟨d, hd, hh⟩

theorem collectPodImages_mem (pods : List Pod) (img : String) :
    img ∈ collectPodImages pods ↔
      ∃ pod ∈ pods, ∃ c ∈ pod.containers, c.image = img := by
  have key : ∀ (ps : List Pod) (acc : Finset String),
      img ∈ ps.foldl
        (fun acc pod =>
          pod.containers.foldl (fun a c => insert c.image a) acc) acc ↔
      img ∈ acc ∨ ∃ pod ∈ ps, ∃ c ∈ pod.containers, c.image = img := by
    intro ps
    induction ps with
    | nil => simp
    | cons p rest ih =>
      intro acc
      rw [List.foldl_cons, ih, collectContainers_mem]
      simp only [List.mem_cons]
      constructor
      · rintro ((h | h) | ⟨pod, hpod, hc⟩)
        · exact Or.inl h
        · exact Or.inr ⟨p, Or.inl rfl, h⟩
        · exact Or.inr ⟨pod, Or.inr hpod, hc⟩
      · rintro (h | ⟨pod, rfl | hpod, hc⟩)
        · exact Or.inl (Or.inl h)
        · exact Or.inl (Or.inr hc)
        · exact Or.inr ⟨pod, hpod, hc⟩
  rw [collectPodImages, key]
  simp

theorem parseImage_registry (img : String) (req : DeleteRequest)
    (h : parseImage img = .ok req) : req.registry = "registry:5000" := by
  unfold parseImage at h
  rcases hc : stringCut img '/' with _ | ⟨host, repotag⟩
  · rw [hc] at h
    exact Except.noConfusion h
  · simp only [hc] at h
    rcases hc2 : stringCut repotag ':' with _ | ⟨repo, tag⟩
    · rw [hc2] at h
      exact Except.noConfusion h
    · simp only [hc2] at h
      cases h
      rfl

theorem imageName_data (repo tag : String) :
    (imageName repo tag).data =
      "ctr.lesiw.dev".data ++ '/' :: (repo.data ++ ':' :: tag.data) := by
  have e1 : ("ctr.lesiw.dev/" : String).data =
      "ctr.lesiw.dev".data ++ ['/'] := rfl
  have e2 : (":" : String).data = [':'] := rfl
  simp [imageName, String.data_append, e1, e2]

theorem parseImage_imageName (repo tag : String) :
    ∃ req, parseImage (imageName repo tag) = .ok req := by
  have hpre : '/' ∉ "ctr.lesiw.dev".data := by decide
  have hcut1 : stringCut (imageName repo tag) '/' =
      some ("ctr.lesiw.dev", ⟨repo.data ++ ':' :: tag.data⟩) :=
    stringCut_split _ '/' _ _ (imageName_data repo tag) hpre
  obtain ⟨⟨p, q⟩, hcut2⟩ :=
    cutList_isSome_of_mem (repo.data ++ ':' :: tag.data) ':' (by simp)
  refine ⟨⟨"registry:5000", ⟨p⟩, ⟨q⟩⟩, ?_⟩
  have hcut3 : stringCut ⟨repo.data ++ ':' :: tag.data⟩ ':' =
      some (⟨p⟩, ⟨q⟩) := by
    unfold stringCut
    rw [show (⟨repo.data ++ ':' :: tag.data⟩ : String).data =
      repo.data ++ ':' :: tag.data from rfl, hcut2]
    rfl
  simp only [parseImage, hcut1, hcut3]

/-- C1: for every Registry Inventory `R` and Workload Inventory `W`, the
Unreferenced Set the reconciler computes — which is exactly the list of
images the deletion loop then attempts to delete — equals the members of
`R` absent from `W` under exact string equality of the canonical
reference: it contains no member of `W` and omits no member of
`R \ W`. -/
theorem unreferenced_set_exact (R W : Finset String) (img : String) :
    (img ∈ pruneReferenced R W ↔ img ∈ R ∧ img ∉ W)
    ∧ attemptedDeletions (runCycleFull R W (fun _ => true)) =
        iterOrder (pruneReferenced R W) := by
  refine ⟨pruneReferenced_mem R W img, ?_⟩
  unfold runCycleFull runCycle attemptedDeletions
  rw [runDeletions_all_ok _ _ (fun x _ => rfl)]
  simp

/-- C2: no image reference that is a member of the Workload Inventory
`W` is ever passed to `deleteImage` during a reconciliation cycle,
regardless of the Registry Inventory `R` and of which deletions the
registry accepts. -/
theorem no_workload_image_deleted (R W : Finset String)
    (ok : String → Bool) (img : String)
    (h : img ∈ attemptedDeletions (runCycleFull R W ok)) : img ∉ W := by
  have hU : img ∈ iterOrder (pruneReferenced R W) :=
    runDeletions_mem _ ok img h
  exact ((pruneReferenced_mem R W img).mp ((mem_iterOrder _ img).mp hU)).2

theorem no_workload_image_deleted_witness :
    ("a" ∈ attemptedDeletions
      (runCycleFull {"a"} ∅ (fun _ => true)))
    ∧ "a" ∉ (∅ : Finset String) := by
  have hmem : "a" ∈ attemptedDeletions
      (runCycleFull {"a"} ∅ (fun _ => true)) := by
    unfold runCycleFull runCycle attemptedDeletions
    rw [runDeletions_all_ok _ _ (fun x _ => rfl)]
    simp only [Option.toList_none, List.append_nil]
    rw [mem_iterOrder, pruneReferenced_mem]
    exact ⟨by decide, by decide⟩
  exact ⟨hmem, no_workload_image_deleted {"a"} ∅ (fun _ => true) "a" hmem⟩

/-- C3: if deletion of one member of the Unreferenced Set fails, the
cycle aborts immediately with that image as the error subject: the
members before it in iteration order stay deleted (not rolled back), no
member from the failing one onwards is deleted, and the GC trigger is
not invoked.  Instantiated at a three-image set with the second deletion
failing, this gives deleted = first image only, failure on the second,
third untouched, GC not triggered. -/
theorem deletion_failure_aborts (pre rest : List String) (img : String)
    (ok : String → Bool) (hpre : ∀ x ∈ pre, ok x = true)
    (himg : ok img = false) :
    runCycle (pre ++ img :: rest) ok = ⟨pre, some img, false⟩ := by
  unfold runCycle
  rw [runDeletions_abort pre rest img ok hpre himg]
  rfl

theorem deletion_failure_aborts_witness :
    runCycle ["a", "b", "c"] (fun s => s == "a") =
      ⟨["a"], some "b", false⟩ :=
  deletion_failure_aborts ["a"] ["c"] "b" (fun s => s == "a")
    (by decide) (by decide)

/-- C8: the reconciler is idempotent: modelling the registry as a set
from which a successful deletion removes its image, after a fully
successful cycle over `R` and `W` the Unreferenced Set recomputed from
the new registry state and the unchanged `W` is empty, so a second run
performs zero deletions. -/
theorem reconciler_idempotent (R W : Finset String) :
    pruneReferenced (afterCycle R (runCycleFull R W (fun _ => true))) W
      = ∅ := by
  apply Finset.eq_empty_iff_forall_not_mem.mpr
  intro img hmem
  obtain ⟨hafter, hW⟩ := (pruneReferenced_mem _ W img).mp hmem
  unfold afterCycle runCycleFull runCycle at hafter
  rw [runDeletions_all_ok _ _ (fun x _ => rfl)] at hafter
  rw [foldl_erase_mem] at hafter
  obtain ⟨hR, hnot⟩ := hafter
  exact hnot
    ((mem_iterOrder _ img).mpr ((pruneReferenced_mem R W img).mpr ⟨hR, hW⟩))

/-- C4: the GC trigger attempts the WebSocket executor first (a success
there never touches the legacy executor); on a WebSocket failure it
falls back to the legacy SPDY executor exactly when the failure is
classified as an upgrade-negotiation failure or an HTTPS-proxy-related
failure, and any other failure class is surfaced immediately with no
fallback attempt. -/
theorem gc_trigger_fallback (e : ExecErr) (spdy : Except ExecErr Unit) :
    ((e = .upgradeFailure ∨ e = .httpsProxyError) →
      gcExec (.error e) spdy = (spdy, true))
    ∧ (¬(e = .upgradeFailure ∨ e = .httpsProxyError) →
      gcExec (.error e) spdy = (.error e, false))
    ∧ ∀ u, gcExec (.ok u) spdy = (.ok (), false) := by
  refine ⟨?_, ?_, fun u => rfl⟩
  · rintro (rfl | rfl) <;> rfl
  · intro h
    cases e with
    | upgradeFailure => exact absurd (Or.inl rfl) h
    | httpsProxyError => exact absurd (Or.inr rfl) h
    | other msg => rfl

theorem gc_trigger_fallback_witness :
    gcExec (.error .upgradeFailure) (.ok ()) = (.ok (), true)
    ∧ gcExec (.error (.other "exit status 1")) (.ok ())
        = (.error (.other "exit status 1"), false) :=
  ⟨(gc_trigger_fallback .upgradeFailure (.ok ())).1 (Or.inl rfl),
   (gc_trigger_fallback (.other "exit status 1") (.ok ())).2.1 (by decide)⟩

/-- C5: the parse step of `deleteImage` rejects malformed image strings
with a parse error, in which case no deletion request is issued: a
string with no `/` fails with the parse-registry error, a string whose
remainder after the first `/` has no `:` fails with the parse-repo-tag
error, and parsing splits on the first `/` and then the first `:` of the
remainder. -/
theorem deleteImage_rejects_malformed (s : String) :
    ('/' ∉ s.data → parseImage s = .error (.parseRegistry s))
    ∧ (∀ pre post, s.data = pre ++ '/' :: post → '/' ∉ pre →
        (':' ∉ post → parseImage s = .error (.parseRepoTag ⟨post⟩))
        ∧ (∀ p q, post = p ++ ':' :: q → ':' ∉ p →
            parseImage s = .ok ⟨"registry:5000", ⟨p⟩, ⟨q⟩⟩)) := by
  constructor
  · intro h
    unfold parseImage stringCut
    rw [(cutList_eq_none_iff s.data '/').mpr h]
    rfl
  · intro pre post hs hpre
    have h1 : stringCut s '/' = some (⟨pre⟩, ⟨post⟩) :=
      stringCut_split s '/' pre post hs hpre
    constructor
    · intro hc
      have h2 : stringCut ⟨post⟩ ':' = none := by
        unfold stringCut
        rw [show (⟨post⟩ : String).data = post from rfl,
          (cutList_eq_none_iff post ':').mpr hc]
        rfl
      simp only [parseImage, h1, h2]
    · intro p q hpq hp
      have h2 : stringCut ⟨post⟩ ':' = some (⟨p⟩, ⟨q⟩) :=
        stringCut_split ⟨post⟩ ':' p q hpq hp
      simp only [parseImage, h1, h2]

theorem deleteImage_rejects_malformed_witness :
    parseImage "noslash" = .error (.parseRegistry "noslash")
    ∧ parseImage "host/nocolon" = .error (.parseRepoTag "nocolon")
    ∧ parseImage "ctr.lesiw.dev/app:v1"
        = .ok ⟨"registry:5000", "app", "v1"⟩ :=
  ⟨(deleteImage_rejects_malformed "noslash").1 (by decide),
   (((deleteImage_rejects_malformed "host/nocolon").2
      "host".data "nocolon".data rfl (by decide)).1 (by decide)),
   (((deleteImage_rejects_malformed "ctr.lesiw.dev/app:v1").2
      "ctr.lesiw.dev".data "app:v1".data rfl (by decide)).2
      "app".data "v1".data rfl (by decide))⟩

/-- C9: for every well-formed image string `host/repository:tag`,
`deleteImage` discards the parsed host and issues the delete against the
fixed registry endpoint `"registry:5000"` using only the parsed
repository and tag: two input strings differing only in their host
produce identical deletion outcomes, and every issued request names
registry `"registry:5000"`. -/
theorem deleteImage_discards_host (host1 host2 rt : String)
    (hh1 : '/' ∉ host1.data) (hh2 : '/' ∉ host2.data) :
    parseImage (host1 ++ "/" ++ rt) = parseImage (host2 ++ "/" ++ rt)
    ∧ ∀ img req, parseImage img = .ok req →
        req.registry = "registry:5000" := by
  have key : ∀ h : String, '/' ∉ h.data →
      parseImage (h ++ "/" ++ rt) =
        match stringCut rt ':' with
        | none => .error (.parseRepoTag rt)
        | some (repo, tag) => .ok ⟨"registry:5000", repo, tag⟩ := by
    intro h hh
    have hdata : (h ++ "/" ++ rt).data = h.data ++ '/' :: rt.data := by
      simp [String.data_append]
    have h1 : stringCut (h ++ "/" ++ rt) '/' = some (h, rt) := by
      have := stringCut_split (h ++ "/" ++ rt) '/' h.data rt.data hdata hh
      simpa using this
    rcases h2 : stringCut rt ':' with _ | ⟨repo, tag⟩ <;>
      simp only [parseImage, h1, h2]
  exact ⟨(key host1 hh1).trans (key host2 hh2).symm,
    fun img req h => parseImage_registry img req h⟩

theorem deleteImage_discards_host_witness :
    parseImage ("registry:5000" ++ "/" ++ "app:v1")
      = parseImage ("ctr.lesiw.dev" ++ "/" ++ "app:v1") :=
  (deleteImage_discards_host "registry:5000" "ctr.lesiw.dev" "app:v1"
    (by decide) (by decide)).1

/-- C10: every image string produced by `fetchRegistryImages` has the
form public-host `/` repository `:` tag, so the two parse-error branches
of `deleteImage` are unreachable for it: the string always contains a
`/`, its remainder always contains a `:`, and parsing yields a
request. -/
theorem fetched_images_always_parse
    (repoList : Except String (List String))
    (tagList : String → Except String (List String)) (imgs : Finset String)
    (hok : fetchRegistryImages repoList tagList = .ok imgs)
    (img : String) (himg : img ∈ imgs) :
    ∃ req, parseImage img = .ok req := by
  cases hr : repoList with
  | error e =>
    unfold fetchRegistryImages at hok
    simp only [hr] at hok
    exact Except.noConfusion hok
  | ok repos =>
    unfold fetchRegistryImages at hok
    simp only [hr] at hok
    rw [fetchRegistryLoop_mem tagList repos ∅ imgs hok img] at himg
    rcases himg with h | ⟨repo, _, tags, _, tag, _, rfl⟩
    · exact absurd h (Finset.not_mem_empty img)
    · exact parseImage_imageName repo tag

theorem fetched_images_always_parse_witness :
    ∃ req, parseImage "ctr.lesiw.dev/app:v1" = .ok req :=
  fetched_images_always_parse (.ok ["app"]) (fun _ => .ok ["v1"])
    (insertTags "app" ["v1"] ∅) rfl "ctr.lesiw.dev/app:v1" (by decide)

/-- C6: the Registry Inventory Fetcher returns exactly the cross product
repository×tag over all listed repositories and their listed tags, each
composed into the canonical string with the registry's public host; if
listing repositories fails, or listing tags for any single repository
fails, the whole fetch fails and no partial inventory is returned. -/
theorem fetchRegistryImages_full_inventory
    (repoList : Except String (List String))
    (tagList : String → Except String (List String)) :
    (∀ e, repoList = .error e →
      fetchRegistryImages repoList tagList = .error e)
    ∧ (∀ repos, repoList = .ok repos →
        ((∃ imgs, fetchRegistryImages repoList tagList = .ok imgs) ↔
          ∀ repo ∈ repos, ∃ tags, tagList repo = .ok tags)
        ∧ ∀ imgs, fetchRegistryImages repoList tagList = .ok imgs →
            ∀ img, (img ∈ imgs ↔ ∃ repo ∈ repos, ∃ tags,
              tagList repo = .ok tags ∧ ∃ tag ∈ tags,
              img = imageName repo tag)) := by
  constructor
  · intro e he
    unfold fetchRegistryImages
    rw [he]
  · intro repos hr
    subst hr
    constructor
    · exact fetchRegistryLoop_ok_iff tagList repos ∅
    · intro imgs hok img
      rw [fetchRegistryLoop_mem tagList repos ∅ imgs hok img]
      simp

theorem fetchRegistryImages_full_inventory_witness :
    ∃ imgs,
      fetchRegistryImages (.ok ["app"]) (fun _ => .ok ["v1"]) = .ok imgs :=
  (((fetchRegistryImages_full_inventory (.ok ["app"])
      (fun _ => .ok ["v1"])).2 ["app"] rfl).1).mpr
    (fun _ _ => ⟨["v1"], rfl⟩)

/-- C7: the Workload Inventory Fetcher lists pods with the empty
namespace selector, which selects every namespace, and its result
contains exactly the image references declared by the containers of
every pod in the whole cluster, with duplicates collapsed by set
semantics; on any API failure it fails with that error and returns no
partial result. -/
theorem fetchPodImages_cluster_wide :
    (∀ (api : String → Except String (List Pod)) e,
      api "" = .error e → fetchPodImages api = .error e)
    ∧ (∀ cluster imgs, fetchPodImages (clusterApi cluster) = .ok imgs →
        ∀ img, (img ∈ imgs ↔ ∃ ns pod, (ns, pod) ∈ cluster ∧
          ∃ c ∈ pod.containers, c.image = img)) := by
  constructor
  · intro api e he
    unfold fetchPodImages
    rw [he]
  · intro cluster imgs hok img
    have hvalue : fetchPodImages (clusterApi cluster) =
        .ok (collectPodImages (listPodsApi cluster "")) := rfl
    rw [hvalue] at hok
    cases hok
    rw [collectPodImages_mem]
    unfold listPodsApi
    simp only [if_pos rfl]
    constructor
    · rintro ⟨pod, hpod, c, hc, him⟩
      obtain ⟨⟨ns, pod2⟩, hmem, rfl⟩ := List.mem_map.mp hpod
      exact ⟨ns, pod2, hmem, c, hc, him⟩
    · rintro ⟨ns, pod, hmem, c, hc, him⟩
      exact ⟨pod, List.mem_map.mpr ⟨(ns, pod), hmem, rfl⟩, c, hc, him⟩

theorem fetchPodImages_cluster_wide_witness :
    ∃ ns pod, (ns, pod) ∈ [("default", Pod.mk [Container.mk "img1"])]
      ∧ ∃ c ∈ pod.containers, c.image = "img1" :=
  (fetchPodImages_cluster_wide.2
    [("default", Pod.mk [Container.mk "img1"])]
    (collectPodImages (listPodsApi
      [("default", Pod.mk [Container.mk "img1"])] "")) rfl "img1").mp
    (by decide)

end Reggc
